import Mathlib

/-!
Verification of the vibemem ranking-and-budgeting core.

This development is a shallow embedding of the Python sources
`src/vibemem/core/tokens.py` (TokenCounter, CompressionStrategy) and
`src/vibemem/core/memory.py` (MemoryStore).  Python ints are modelled as
Lean Int, Python lists as Lean List, Python dicts used as records as Lean
structures, and the categories dict as an association list (Python dicts
preserve insertion order and have unique keys).  Python floor division
is Int.fdiv, and a Python expression that can raise an exception
(the ZeroDivisionError reachable in CompressionStrategy._summarize_items)
is modelled with Option, none standing for the raised exception.
Timestamps (Python time.time floats) are modelled as integers: every
comparison the code performs on them is order-theoretic, so the integer
model preserves the behaviour on integer-valued times.  The external
tiktoken encoding service is modelled by the Encoder structure below.
-/

namespace Vibemem

/-! ## Generic helpers -/

/-- Python list slicing l[:n] : a negative n counts from the end. -/
def pyTake {α : Type} (n : Int) (l : List α) : List α :=
  if n < 0 then l.take ((l.length + n).toNat) else l.take n.toNat

/-- whitespace test used to model Python str.split() and str.rstrip(). -/
def wsp (c : Char) : Bool := c.isWhitespace

/-- accumulator for word splitting: cur holds the current word reversed. -/
def wordsAux (cur : List Char) : List Char → List (List Char)
  | [] => if cur = [] then [] else [cur.reverse]
  | c :: cs =>
    if wsp c then
      if cur = [] then wordsAux [] cs else cur.reverse :: wordsAux [] cs
    else wordsAux (c :: cur) cs

/-- model of Python text.split() (no arguments): split on runs of
whitespace, discarding empty pieces. -/
def words (l : List Char) : List (List Char) := wordsAux [] l

/-- model of the Python substring test (needle in hay) on char lists. -/
def listContains (hay needle : List Char) : Bool :=
  (List.range (hay.length + 1)).any fun i => needle.isPrefixOf (hay.drop i)

/-- model of the Python substring test (needle in hay) on strings. -/
def strContains (hay needle : String) : Bool := listContains hay.data needle.data

/-- model of Python str.lower(): charwise lowering. -/
def lower (s : String) : String := ⟨s.data.map Char.toLower⟩

/-- model of Python str.rstrip(): drop trailing whitespace. -/
def rstrip (s : String) : String := ⟨(s.data.reverse.dropWhile wsp).reverse⟩

/-- ascending lexicographic order on Python 2-tuples of ints, the key
order used by list.sort(key=...) in the sources. -/
def keyLe (a b : Int × Int) : Prop := a.1 < b.1 ∨ (a.1 = b.1 ∧ a.2 ≤ b.2)

instance (a b : Int × Int) : Decidable (keyLe a b) := by unfold keyLe; infer_instance

/-- stable insertion of x in front of the first element whose key is not
below x. -/
def insertK {α : Type} (key : α → Int × Int) (x : α) : List α → List α
  | [] => [x]
  | q :: qs => if keyLe (key x) (key q) then x :: q :: qs else q :: insertK key x qs

/-- stable ascending sort by key.  Python list.sort is a stable sort; a
stable sort by a fixed key is extensionally unique, so stable insertion
sort is a faithful model of it. -/
def sortByKey {α : Type} (key : α → Int × Int) : List α → List α
  | [] => []
  | x :: xs => insertK key x (sortByKey key xs)

/-! ## Tokenizer -/

/-- Model of the external subword-encoding service (tiktoken) behind
TokenCounter.  The service is out of scope of the repository; the two
laws record the interface the code relies on: decoding the encoding of
a text gives the text back, and re-encoding a decoded token list never
produces more tokens than the list held.  The instance charEnc below
realises the interface with one token per character. -/
structure Encoder (τ : Type) where
  encode : String → List τ
  decode : List τ → String
  decode_encode : ∀ s, decode (encode s) = s
  encode_decode_le : ∀ ts, (encode (decode ts)).length ≤ ts.length

/-- one-token-per-character encoder, used to evaluate the model on
concrete inputs. -/
def charEnc : Encoder Char where
  encode := String.data
  decode := String.mk
  decode_encode := fun _ => rfl
  encode_decode_le := fun _ => Nat.le_refl _

namespace TokenCounter

/-- TokenCounter.count: 0 on the empty (falsy) string, else the length
of the encoding. -/
def count {τ : Type} (E : Encoder τ) (text : String) : Nat :=
  if text = "" then 0 else (E.encode text).length

/-- TokenCounter.truncate_to_tokens: return the text unchanged when its
encoding fits, else decode the first max_tokens tokens. -/
def truncate_to_tokens {τ : Type} (E : Encoder τ) (text : String) (maxTokens : Int) : String :=
  let tokens := E.encode text
  if (tokens.length : Int) ≤ maxTokens then text
  else E.decode (pyTake maxTokens tokens)

end TokenCounter

/-! ## MemoryItem -/

/-- a memory item: the dict shape built by MemoryStore.add and consumed
by CompressionStrategy. -/
structure Item where
  id : String
  category : String
  subcategory : Option String
  content : String
  priority : String
  tokens : Int
  timestamp : Int
  compressed : Bool
deriving DecidableEq, Repr

/-- sum of the tokens fields over a list of items. -/
def listTokens (l : List Item) : Int := (l.map (fun it => it.tokens)).sum

namespace CompressionStrategy

/-- CompressionStrategy._summarize_single: truncate the content to
max_tokens - 10 tokens, append an ellipsis when truncation happened,
recount tokens and set compressed.  The Python function always returns
a (truthy) dict, so no Option is needed. -/
def summarize_single {τ : Type} (E : Encoder τ) (item : Item) (maxTokens : Int) : Item :=
  let content := item.content
  let t0 := TokenCounter.truncate_to_tokens E content (maxTokens - 10)
  let truncated := if t0 ≠ content then rstrip t0 ++ "..." else t0
  { item with
      content := truncated
      tokens := (TokenCounter.count E truncated : Int)
      compressed := true }

/-- CompressionStrategy._summarize_items: none models the
ZeroDivisionError Python raises on an empty items list (len(items) = 0
in target_tokens // len(items)). -/
def summarize_items {τ : Type} (E : Encoder τ) (items : List Item) (targetTokens : Int) :
    Option (List Item) :=
  if items.length = 0 then none
  else
    let budget := max 50 (Int.fdiv targetTokens items.length)
    some (items.foldl
      (fun res item =>
        if item.tokens ≤ budget then res ++ [item]
        else res ++ [summarize_single E item budget])
      [])

/-- the preserve_categories or ["critical", "error", "arch"] line: both
None and the empty list are falsy in Python, so both select the
default. -/
def preserveList (pc : Option (List String)) : List String :=
  match pc with
  | none => ["critical", "error", "arch"]
  | some l => if l.isEmpty then ["critical", "error", "arch"] else l

/-- priority_order.get(priority, 2) with priority_order
normal to 0, low to 1. -/
def priorityRank (p : String) : Int :=
  if p = "normal" then 0 else if p = "low" then 1 else 2

/-- the partition test of smart_compress:
priority critical or category in preserve_categories. -/
def isProt (pcs : List String) (it : Item) : Bool :=
  it.priority = "critical" || pcs.contains it.category

/-- protected sublist, in input order. -/
def protectedOf (pcs : List String) (items : List Item) : List Item :=
  items.filter (isProt pcs)

/-- compressible sublist, in input order. -/
def compressibleOf (pcs : List String) (items : List Item) : List Item :=
  items.filter (fun it => !isProt pcs it)

/-- one iteration of the smart_compress accumulation loop over the state
(result, current_tokens, remaining_budget).  Note the source updates
remaining_budget only in the summarization branch. -/
def compressStep {τ : Type} (E : Encoder τ) (targetTokens : Int)
    (acc : List Item × Int × Int) (item : Item) : List Item × Int × Int :=
  let (result, currentTokens, remainingBudget) := acc
  if currentTokens + item.tokens ≤ targetTokens then
    (result ++ [item], currentTokens + item.tokens, remainingBudget)
  else if remainingBudget > 100 then
    let summarized := summarize_single E item (Int.fdiv remainingBudget 2)
    (result ++ [summarized], currentTokens + summarized.tokens,
      targetTokens - (currentTokens + summarized.tokens))
  else
    (result, currentTokens, remainingBudget)

/-- CompressionStrategy.smart_compress.  none models a raised
ZeroDivisionError (only reachable through summarize_items on an empty
protected partition). -/
def smart_compress {τ : Type} (E : Encoder τ) (items : List Item) (targetTokens : Int)
    (preserveCategories : Option (List String)) : Option (List Item) :=
  let pcs := preserveList preserveCategories
  let prot := protectedOf pcs items
  let compressible := compressibleOf pcs items
  let protectedTokens := listTokens prot
  if protectedTokens ≥ targetTokens then
    summarize_items E prot targetTokens
  else
    let remainingBudget := targetTokens - protectedTokens
    let sortedC := sortByKey (fun x => (priorityRank x.priority, -x.timestamp)) compressible
    some (sortedC.foldl (compressStep E targetTokens)
      (prot, protectedTokens, remainingBudget)).1

end CompressionStrategy

/-! ## MemoryStore -/

/-- a per-category aggregate: the count/tokens dict tracked by
MemoryStore. -/
structure Agg where
  count : Int
  tokens : Int
deriving DecidableEq, Repr

/-- lookup in the categories association list (dict access). -/
def alookup (c : String) : List (String × Agg) → Option Agg
  | [] => none
  | p :: ps => if p.1 = c then some p.2 else alookup c ps

/-- the memory store state: the memories list and the categories dict of
the persisted snapshot. -/
structure Store where
  memories : List Item
  categories : List (String × Agg)
deriving DecidableEq, Repr

/-- a fresh store as built by MemoryStore.initialize. -/
def emptyStore : Store := { memories := [], categories := [] }

/-- category.split(":", 1): split at the first colon when present. -/
def parseCat (c : String) : String × Option String :=
  if c.data.contains ':' then
    (⟨c.data.takeWhile (fun d => d ≠ ':')⟩,
      some ⟨(c.data.dropWhile (fun d => d ≠ ':')).tail⟩)
  else (c, none)

/-- ensure the category has an entry in the dict (the creating branch of
MemoryStore.add); a new entry is appended, as dict insertion does. -/
def catsInit (cats : List (String × Agg)) (c : String) : List (String × Agg) :=
  if (alookup c cats).isSome then cats else cats ++ [(c, ⟨0, 0⟩)]

/-- add delta to the count/tokens entry of category c. -/
def catsBump (cats : List (String × Agg)) (c : String) (dcount dtokens : Int) :
    List (String × Agg) :=
  cats.map fun p => if p.1 = c then (p.1, ⟨p.2.count + dcount, p.2.tokens + dtokens⟩) else p

namespace MemoryStore

/-- MemoryStore.add.  The id (a content+time hash) and the timestamp are
effects of time.time and hashlib in the source; they enter the model as
the explicit arguments newId and now. -/
def add {τ : Type} (E : Encoder τ) (newId : String) (now : Int) (st : Store)
    (category content priority : String) : Item × Store :=
  let (cat, subcat) := parseCat category
  let item : Item :=
    { id := newId
      category := cat
      subcategory := subcat
      content := content
      priority := priority
      tokens := (TokenCounter.count E content : Int)
      timestamp := now
      compressed := false }
  (item,
    { memories := st.memories ++ [item]
      categories := catsBump (catsInit st.categories cat) cat 1 item.tokens })

/-- the match test of MemoryStore.remove:
item id equals the argument, or the argument is a substring of the
content. -/
def itemMatches (arg : String) (it : Item) : Bool :=
  it.id = arg || strContains it.content arg

/-- the scan of MemoryStore.remove: first match in storage order,
returned together with the remaining list. -/
def removeFirst (arg : String) : List Item → Option (Item × List Item)
  | [] => none
  | it :: rest =>
    if itemMatches arg it then some (it, rest)
    else
      match removeFirst arg rest with
      | none => none
      | some (r, rest') => some (r, it :: rest')

/-- MemoryStore.remove: pop the first matching item, decrement its
category aggregate when the category is present, return none (Python
None) when nothing matches. -/
def remove (st : Store) (arg : String) : Option Item × Store :=
  match removeFirst arg st.memories with
  | none => (none, st)
  | some (it, mems) =>
    let cats :=
      if (alookup it.category st.categories).isSome then
        catsBump st.categories it.category (-1) (-it.tokens)
      else st.categories
    (some it, { memories := mems, categories := cats })

/-- the scoring loop body of MemoryStore.get_relevant for one item.
now stands for the time.time() call; the float division by 3600 of the
source is rendered by the equivalent integer comparisons in seconds
(age/3600 < 24 iff age < 86400, age/3600 < 168 iff age < 604800). -/
def scoreItem (query : String) (now : Int) (it : Item) : Int :=
  let queryLower := lower query
  let queryWords := (words queryLower.data).toFinset
  let contentLower := lower it.content
  let categoryLower := lower it.category
  let catScore : Int :=
    if strContains queryLower categoryLower || strContains categoryLower queryLower
    then 10 else 0
  let overlap : Int := ((queryWords ∩ (words contentLower.data).toFinset).card : Int)
  let subScore : Int := if strContains contentLower queryLower then 5 else 0
  let prioScore : Int :=
    if it.priority = "critical" then 5 else if it.priority = "low" then -2 else 0
  let recScore : Int :=
    if now - it.timestamp < 86400 then 3
    else if now - it.timestamp < 604800 then 1 else 0
  catScore + 2 * overlap + subScore + prioScore + recScore

/-- the scored list of get_relevant: (score, item) pairs with positive
score, in storage order. -/
def scoredOf (st : Store) (query : String) (now : Int) : List (Int × Item) :=
  (st.memories.map (fun it => (scoreItem query now it, it))).filter
    (fun p => decide (0 < p.1))

/-- scored.sort(key=lambda x: -x[0]): stable sort by descending
score. -/
def sortedScored (st : Store) (query : String) (now : Int) : List (Int × Item) :=
  sortByKey (fun p => (-p.1, 0)) (scoredOf st query now)

/-- MemoryStore.get_relevant (max_items defaults to 20 in the
source). -/
def get_relevant (st : Store) (query : String) (now : Int) (maxItems : Nat) : List Item :=
  ((sortedScored st query now).take maxItems).map (fun p => p.2)

end MemoryStore

/-- one store mutation, for stating the aggregate invariant over
arbitrary operation sequences. -/
inductive Op where
  | add (newId : String) (now : Int) (category content priority : String)
  | remove (arg : String)

/-- apply one operation to the store. -/
def applyOp {τ : Type} (E : Encoder τ) (st : Store) : Op → Store
  | .add newId now category content priority =>
      (MemoryStore.add E newId now st category content priority).2
  | .remove arg => (MemoryStore.remove st arg).2

/-- run a sequence of operations from a store. -/
def runOps {τ : Type} (E : Encoder τ) (ops : List Op) (st : Store) : Store :=
  ops.foldl (applyOp E) st

/-! ## Concrete inputs used to evaluate the model -/

/-- a compressible 101-token item (101 characters under charEnc). -/
def bigItem : Item :=
  { id := "big", category := "misc", subcategory := none,
    content := ⟨List.replicate 101 'a'⟩, priority := "normal",
    tokens := 101, timestamp := 2, compressed := false }

/-- a compressible 1-token item, older than bigItem. -/
def smallItem : Item :=
  { id := "small", category := "misc", subcategory := none,
    content := "b", priority := "normal",
    tokens := 1, timestamp := 1, compressed := false }

/-- a critical-priority item. -/
def critItem : Item :=
  { id := "crit", category := "misc", subcategory := none,
    content := "the port is 8002", priority := "critical",
    tokens := 16, timestamp := 0, compressed := false }

/-- a store item whose content holds the query of the scoring
witnesses. -/
def hitItem : Item :=
  { id := "hit", category := "misc", subcategory := none,
    content := "x y", priority := "normal",
    tokens := 3, timestamp := 0, compressed := false }

/-- a store item whose content misses the query of the scoring
witnesses. -/
def missItem : Item :=
  { id := "miss", category := "misc", subcategory := none,
    content := "a", priority := "normal",
    tokens := 1, timestamp := 0, compressed := false }

/-- a two-item store for the retrieval witnesses. -/
def wStore : Store :=
  { memories := [hitItem, missItem],
    categories := [("misc", ⟨2, 4⟩)] }

/-- first item of the removal-witness store. -/
def rItem1 : Item :=
  { id := "i1", category := "misc", subcategory := none,
    content := "hello", priority := "normal",
    tokens := 5, timestamp := 0, compressed := false }

/-- second item of the removal-witness store. -/
def rItem2 : Item :=
  { id := "i2", category := "misc", subcategory := none,
    content := "world", priority := "normal",
    tokens := 5, timestamp := 1, compressed := false }

/-- a two-item store for the removal witnesses. -/
def rStore : Store :=
  { memories := [rItem1, rItem2],
    categories := [("misc", ⟨2, 10⟩)] }

/-- the category-aggregate consistency invariant: every aggregate entry
counts and sums exactly the live items of its category, and a category
absent from the dict has no live items. -/
def StoreInv (st : Store) : Prop :=
  ∀ cat : String,
    (∀ agg, alookup cat st.categories = some agg →
      agg.count = ((st.memories.filter (fun m => decide (m.category = cat))).length : Int) ∧
      agg.tokens = listTokens (st.memories.filter (fun m => decide (m.category = cat)))) ∧
    (alookup cat st.categories = none →
      st.memories.filter (fun m => decide (m.category = cat)) = [])

/-! ## List helper lemmas -/

theorem length_dropWhile_le' {α : Type} (p : α → Bool) (l : List α) :
    (l.dropWhile p).length ≤ l.length := by
  induction l with
  | nil => simp [List.dropWhile]
  | cons c cs ih =>
    rw [List.dropWhile_cons]
    by_cases h : p c = true
    · simp only [h, if_true]
      exact Nat.le_succ_of_le ih
    · simp [h]

theorem takeWhile_append_pos {α : Type} (p : α → Bool) (u v : List α)
    (h : ∀ c ∈ u, p c = true) : (u ++ v).takeWhile p = u ++ v.takeWhile p := by
  induction u with
  | nil => simp
  | cons c cs ih =>
    have hc : p c = true := h c (by simp)
    simp only [List.cons_append, List.takeWhile_cons, hc, if_true]
    rw [ih (fun d hd => h d (by simp [hd]))]

theorem dropWhile_append_pos {α : Type} (p : α → Bool) (u v : List α)
    (h : ∀ c ∈ u, p c = true) : (u ++ v).dropWhile p = v.dropWhile p := by
  induction u with
  | nil => simp
  | cons c cs ih =>
    have hc : p c = true := h c (by simp)
    simp only [List.cons_append, List.dropWhile_cons, hc, if_true]
    exact ih (fun d hd => h d (by simp [hd]))

theorem takeWhile_append_neg {α : Type} (p : α → Bool) (u v : List α)
    (h : u.all p = false) : (u ++ v).takeWhile p = u.takeWhile p := by
  induction u with
  | nil => simp at h
  | cons c cs ih =>
    simp only [List.cons_append, List.takeWhile_cons]
    by_cases hc : p c = true
    · simp only [hc, if_true]
      rw [ih (by simp [List.all_cons, hc] at h; simp [h])]
    · simp [hc]

theorem dropWhile_append_neg {α : Type} (p : α → Bool) (u v : List α)
    (h : u.all p = false) : (u ++ v).dropWhile p = u.dropWhile p ++ v := by
  induction u with
  | nil => simp at h
  | cons c cs ih =>
    simp only [List.cons_append, List.dropWhile_cons]
    by_cases hc : p c = true
    · simp only [hc, if_true]
      exact ih (by simp [List.all_cons, hc] at h; simp [h])
    · simp [hc]

theorem takeWhile_eq_self_of_all {α : Type} (p : α → Bool) (l : List α)
    (h : ∀ c ∈ l, p c = true) : l.takeWhile p = l := by
  induction l with
  | nil => simp
  | cons c cs ih =>
    simp only [List.takeWhile_cons, h c (by simp), if_true]
    rw [ih (fun d hd => h d (by simp [hd]))]

theorem dropWhile_eq_nil_of_all {α : Type} (p : α → Bool) (l : List α)
    (h : ∀ c ∈ l, p c = true) : l.dropWhile p = [] := by
  induction l with
  | nil => simp
  | cons c cs ih =>
    simp only [List.dropWhile_cons, h c (by simp), if_true]
    exact ih (fun d hd => h d (by simp [hd]))

theorem dropWhile_head_false {α : Type} (p : α → Bool) (l : List α) (c : α) (cs : List α)
    (h : l.dropWhile p = c :: cs) : p c = false := by
  induction l with
  | nil => simp at h
  | cons d ds ih =>
    rw [List.dropWhile_cons] at h
    by_cases hd : p d = true
    · simp only [hd, if_true] at h
      exact ih h
    · simp only [hd, if_false] at h
      cases h
      simpa using hd

/-! ## Word splitting: equations and structure -/

theorem wordsAux_ne (cur : List Char) (h : cur ≠ []) (l : List Char) :
    wordsAux cur l =
      (cur.reverse ++ l.takeWhile (fun d => !wsp d)) ::
        wordsAux [] (l.dropWhile (fun d => !wsp d)) := by
  induction l generalizing cur with
  | nil => simp [wordsAux, h]
  | cons d ds ih =>
    by_cases hd : wsp d
    · simp [wordsAux, h, hd, List.takeWhile_cons, List.dropWhile_cons, wordsAux]
    · simp only [wordsAux, hd, if_neg, Bool.not_eq_true]
      rw [ih (d :: cur) (by simp)]
      simp [List.takeWhile_cons, List.dropWhile_cons, hd]

theorem words_nil : words [] = [] := rfl

theorem words_cons_wsp (c : Char) (cs : List Char) (h : wsp c = true) :
    words (c :: cs) = words cs := by
  simp [words, wordsAux, h]

theorem words_cons_not_wsp (c : Char) (cs : List Char) (h : wsp c = false) :
    words (c :: cs) =
      (c :: cs.takeWhile (fun d => !wsp d)) :: words (cs.dropWhile (fun d => !wsp d)) := by
  simp only [words, wordsAux, h, Bool.false_eq_true, if_false, if_neg]
  rw [wordsAux_ne [c] (by simp)]
  simp

theorem mem_words_aux :
    ∀ (n : Nat) (l : List Char), l.length ≤ n →
      ∀ w ∈ words l, w ≠ [] ∧ ∀ c ∈ w, wsp c = false := by
  intro n
  induction n with
  | zero =>
    intro l hl w hw
    rw [List.length_eq_zero.mp (Nat.le_zero.mp hl)] at hw
    simp [words_nil] at hw
  | succ n ih =>
    intro l hl w hw
    cases l with
    | nil => simp [words_nil] at hw
    | cons c cs =>
      simp only [List.length_cons, Nat.succ_le_succ_iff] at hl
      by_cases hc : wsp c = true
      · rw [words_cons_wsp c cs hc] at hw
        exact ih cs hl w hw
      · rw [words_cons_not_wsp c cs (by simpa using hc)] at hw
        rcases List.mem_cons.mp hw with rfl | hw'
        · refine ⟨by simp, ?_⟩
          intro d hd
          rcases List.mem_cons.mp hd with rfl | hd'
          · simpa using hc
          · simpa using List.mem_takeWhile_imp hd'
        · exact ih (cs.dropWhile (fun d => !wsp d))
            (Nat.le_trans (length_dropWhile_le' _ cs) hl) w hw'

theorem mem_words_ne_nil {l w : List Char} (hw : w ∈ words l) : w ≠ [] :=
  (mem_words_aux l.length l (Nat.le_refl _) w hw).1

theorem mem_words_not_wsp {l w : List Char} (hw : w ∈ words l) : ∀ c ∈ w, wsp c = false :=
  (mem_words_aux l.length l (Nat.le_refl _) w hw).2

theorem words_all_not_wsp (w : List Char) (hne : w ≠ []) (hn : ∀ c ∈ w, wsp c = false) :
    words w = [w] := by
  cases w with
  | nil => exact absurd rfl hne
  | cons c cs =>
    rw [words_cons_not_wsp c cs (hn c (by simp))]
    rw [takeWhile_eq_self_of_all _ cs (fun d hd => by simp [hn d (by simp [hd])])]
    rw [dropWhile_eq_nil_of_all _ cs (fun d hd => by simp [hn d (by simp [hd])])]
    rfl

theorem words_append_wsp_aux :
    ∀ (n : Nat) (x : List Char), x.length ≤ n → ∀ (a : Char), wsp a = true →
      ∀ (y : List Char), words (x ++ a :: y) = words x ++ words y := by
  intro n
  induction n with
  | zero =>
    intro x hx a ha y
    rw [List.length_eq_zero.mp (Nat.le_zero.mp hx)]
    simp [words_nil, words_cons_wsp a y ha]
  | succ n ih =>
    intro x hx a ha y
    cases x with
    | nil => simp [words_nil, words_cons_wsp a y ha]
    | cons c cs =>
      simp only [List.length_cons, Nat.succ_le_succ_iff] at hx
      by_cases hc : wsp c = true
      · rw [List.cons_append, words_cons_wsp c _ hc, words_cons_wsp c cs hc]
        exact ih cs hx a ha y
      · have hc' : wsp c = false := by simpa using hc
        rw [List.cons_append, words_cons_not_wsp c _ hc', words_cons_not_wsp c cs hc']
        by_cases hall : cs.all (fun d => !wsp d) = true
        · have hall' : ∀ d ∈ cs, (fun d => !wsp d) d = true := fun d hd => by
            simpa using List.all_eq_true.mp hall d hd
          rw [takeWhile_append_pos _ cs (a :: y) hall',
              dropWhile_append_pos _ cs (a :: y) hall']
          rw [takeWhile_eq_self_of_all _ cs hall', dropWhile_eq_nil_of_all _ cs hall']
          simp only [List.takeWhile_cons, ha, Bool.not_true, Bool.false_eq_true, if_false,
            List.dropWhile_cons]
          rw [words_cons_wsp a y ha]
          simp [words_nil]
        · have hall' : cs.all (fun d => !wsp d) = false := by simpa using hall
          rw [takeWhile_append_neg _ cs (a :: y) hall',
              dropWhile_append_neg _ cs (a :: y) hall']
          rw [ih (cs.dropWhile (fun d => !wsp d))
            (Nat.le_trans (length_dropWhile_le' _ cs) hx) a ha y]
          simp

theorem words_append_wsp (x : List Char) (a : Char) (ha : wsp a = true) (y : List Char) :
    words (x ++ a :: y) = words x ++ words y :=
  words_append_wsp_aux x.length x (Nat.le_refl _) a ha y

theorem words_sandwich_mem (t t1 t2 w : List Char) (a b : Char)
    (ht : t = t1 ++ a :: (w ++ b :: t2)) (ha : wsp a = true) (hb : wsp b = true)
    (hne : w ≠ []) (hn : ∀ c ∈ w, wsp c = false) : w ∈ words t := by
  subst ht
  rw [words_append_wsp t1 a ha, words_append_wsp w b hb]
  rw [words_all_not_wsp w hne hn]
  simp

theorem words_head_decomp :
    ∀ (t : List Char) (w : List Char), (words t)[0]? = some w →
      ∃ t1 t2, t = t1 ++ (w ++ t2) ∧ (∀ c ∈ t1, wsp c = true) ∧
        (words t).length ≤ 1 + (words t2).length ∧
        (2 ≤ (words t).length → ∃ b t3, t2 = b :: t3 ∧ wsp b = true) := by
  intro t
  induction t with
  | nil => intro w hw; simp [words_nil] at hw
  | cons c cs ih =>
    intro w hw
    by_cases hc : wsp c = true
    · rw [words_cons_wsp c cs hc] at hw ⊢
      obtain ⟨t1, t2, heq, h1, hlen, h2⟩ := ih w hw
      exact ⟨c :: t1, t2, by simp [heq], by
        intro d hd
        rcases List.mem_cons.mp hd with rfl | hd'
        · exact hc
        · exact h1 d hd', hlen, h2⟩
    · have hc' : wsp c = false := by simpa using hc
      rw [words_cons_not_wsp c cs hc'] at hw ⊢
      simp only [List.getElem?_cons_zero, Option.some.injEq] at hw
      subst hw
      refine ⟨[], cs.dropWhile (fun d => !wsp d), ?_, by simp, ?_, ?_⟩
      · simp [List.takeWhile_append_dropWhile]
      · simp only [List.length_cons]
        omega
      · intro hlen2
        cases hdw : cs.dropWhile (fun d => !wsp d) with
        | nil =>
          rw [hdw, words_nil] at hlen2
          simp at hlen2
        | cons b t3 =>
          have hb : wsp b = true := by
            have := dropWhile_head_false (fun d => !wsp d) cs b t3 hdw
            simpa using this
          exact ⟨b, t3, rfl, hb⟩

theorem words_interior_aux :
    ∀ (n : Nat) (t : List Char), t.length ≤ n →
      ∀ (i : Nat) (w : List Char), 1 ≤ i → i + 1 < (words t).length →
        (words t)[i]? = some w →
        ∃ t1 a b t2, t = t1 ++ a :: (w ++ b :: t2) ∧ wsp a = true ∧ wsp b = true := by
  intro n
  induction n with
  | zero =>
    intro t ht i w _ hi hw
    rw [List.length_eq_zero.mp (Nat.le_zero.mp ht)] at hw
    simp [words_nil] at hw
  | succ n ih =>
    intro t ht i w h1 hi hw
    cases t with
    | nil => simp [words_nil] at hw
    | cons c cs =>
      simp only [List.length_cons, Nat.succ_le_succ_iff] at ht
      by_cases hc : wsp c = true
      · rw [words_cons_wsp c cs hc] at hi hw
        obtain ⟨t1, a, b, t2, heq, ha, hb⟩ := ih cs ht i w h1 hi hw
        exact ⟨c :: t1, a, b, t2, by simp [heq], ha, hb⟩
      · have hc' : wsp c = false := by simpa using hc
        rw [words_cons_not_wsp c cs hc'] at hi hw
        obtain ⟨j, rfl⟩ : ∃ j, i = j + 1 := ⟨i - 1, by omega⟩
        simp only [List.getElem?_cons_succ] at hw
        simp only [List.length_cons] at hi
        set rest := cs.dropWhile (fun d => !wsp d) with hrest
        cases hr : rest with
        | nil =>
          rw [hr, words_nil] at hw
          simp at hw
        | cons b rest2 =>
          have hb : wsp b = true := by
            have := dropWhile_head_false (fun d => !wsp d) cs b rest2 (hrest ▸ hr)
            simpa using this
          have hsplit : c :: cs = (c :: cs.takeWhile (fun d => !wsp d)) ++ rest := by
            simp [hrest, List.takeWhile_append_dropWhile]
          rw [hr, words_cons_wsp b rest2 hb] at hw hi
          by_cases hj : 1 ≤ j
          · obtain ⟨t1, a, b', t2, heq, ha, hb'⟩ := ih rest2
              (by
                have h1 : rest.length ≤ cs.length := hrest ▸ length_dropWhile_le' _ cs
                rw [hr] at h1
                simp only [List.length_cons] at h1
                omega)
              j w hj (by omega) hw
            refine ⟨(c :: cs.takeWhile (fun d => !wsp d)) ++ b :: t1, a, b', t2, ?_, ha, hb'⟩
            rw [hsplit, hr, heq]
            simp
          · have hj0 : j = 0 := by omega
            subst hj0
            obtain ⟨t1, t2, heq, hall, _, hnext⟩ := words_head_decomp rest2 w hw
            obtain ⟨b', t3, ht2, hb'⟩ := hnext (by omega)
            rcases List.eq_nil_or_concat t1 with rfl | ⟨t1f, a, rfl⟩
            · refine ⟨c :: cs.takeWhile (fun d => !wsp d), b, b', t3, ?_, hb, hb'⟩
              rw [hsplit, hr, heq, ht2]
              simp
            · have ha : wsp a = true := hall a (by simp)
              refine ⟨(c :: cs.takeWhile (fun d => !wsp d)) ++ b :: t1f, a, b', t3, ?_, ha, hb'⟩
              rw [hsplit, hr, heq, ht2]
              simp

theorem words_interior (t : List Char) (i : Nat) (w : List Char)
    (h1 : 1 ≤ i) (hi : i + 1 < (words t).length) (hw : (words t)[i]? = some w) :
    ∃ t1 a b t2, t = t1 ++ a :: (w ++ b :: t2) ∧ wsp a = true ∧ wsp b = true :=
  words_interior_aux t.length t (Nat.le_refl _) i w h1 hi hw

/-! ## Substring containment -/

theorem listContains_iff (hay needle : List Char) :
    listContains hay needle = true ↔ ∃ p s, hay = p ++ needle ++ s := by
  unfold listContains
  rw [List.any_eq_true]
  constructor
  · rintro ⟨i, _, hpre⟩
    rw [List.isPrefixOf_iff_prefix] at hpre
    obtain ⟨s, hs⟩ := hpre
    refine ⟨hay.take i, s, ?_⟩
    conv_lhs => rw [← List.take_append_drop i hay]
    rw [← hs]
    simp
  · rintro ⟨p, s, rfl⟩
    refine ⟨p.length, ?_, ?_⟩
    · rw [List.mem_range]
      simp only [List.append_assoc, List.length_append]
      omega
    · rw [List.isPrefixOf_iff_prefix]
      refine ⟨s, ?_⟩
      rw [List.append_assoc, List.drop_left]

theorem strContains_iff (hay needle : String) :
    strContains hay needle = true ↔ ∃ p s, hay.data = p ++ needle.data ++ s :=
  listContains_iff hay.data needle.data

theorem strContains_empty (s : String) : strContains s "" = true := by
  unfold strContains listContains
  rw [List.any_eq_true]
  refine ⟨0, by simp [List.mem_range], ?_⟩
  have : ("" : String).data = [] := rfl
  rw [this]
  simp [List.isPrefixOf]

/-! ## The word-overlap bound behind scoring monotonicity -/

theorem words_card_le_of_contains (lq l2 : List Char) (h : listContains l2 lq = true) :
    (words lq).toFinset.card ≤ ((words lq).toFinset ∩ (words l2).toFinset).card + 2 := by
  classical
  obtain ⟨p, s, rfl⟩ := (listContains_iff l2 lq).mp h
  set W := words lq with hW
  set Q := W.toFinset with hQ
  set B := (words (p ++ lq ++ s)).toFinset with hB
  have hsub : Q \ B ⊆ {W.head?.getD [], W.getLast?.getD []} := by
    intro w hw
    rw [Finset.mem_sdiff] at hw
    obtain ⟨hwQ, hwB⟩ := hw
    have hwW : w ∈ W := List.mem_toFinset.mp hwQ
    by_contra hnot
    simp only [Finset.mem_insert, Finset.mem_singleton] at hnot
    push_neg at hnot
    obtain ⟨hnh, hnl⟩ := hnot
    obtain ⟨i, hilt, hget⟩ := List.mem_iff_getElem.mp hwW
    have hne0 : i ≠ 0 := by
      intro h0
      apply hnh
      have : W.head? = some w := by
        subst h0
        rw [List.head?_eq_getElem?, List.getElem?_eq_getElem hilt, hget]
      simp [this]
    have hnelast : i ≠ W.length - 1 := by
      intro hlast
      apply hnl
      have : W.getLast? = some w := by
        rw [List.getLast?_eq_getElem?, ← hlast, List.getElem?_eq_getElem hilt, hget]
      simp [this]
    obtain ⟨t1, a, b, t2, heq, ha, hb⟩ :=
      words_interior lq i w (by omega) (by rw [← hW]; omega)
        (by rw [← hW, List.getElem?_eq_getElem hilt, hget])
    apply hwB
    rw [hB, List.mem_toFinset]
    refine words_sandwich_mem (p ++ lq ++ s) (p ++ t1) (t2 ++ s) w a b ?_ ha hb
      (mem_words_ne_nil (hW ▸ hwW)) (mem_words_not_wsp (hW ▸ hwW))
    rw [heq]
    simp
  have hcard2 : (Q \ B).card ≤ 2 := by
    refine Nat.le_trans (Finset.card_le_card hsub) ?_
    refine Nat.le_trans (Finset.card_insert_le _ _) ?_
    simp
  have := Finset.card_sdiff_add_card_inter Q B
  omega

/-- C6.  For a fixed query, an item whose lowered content holds the
lowered query verbatim scores at least as high as an otherwise identical
item (same category, priority and timestamp) whose content does not. -/
theorem score_monotone_substring (query : String) (now : Int) (i1 i2 : Item)
    (hcat : i1.category = i2.category) (hpri : i1.priority = i2.priority)
    (hts : i1.timestamp = i2.timestamp)
    (h1 : strContains (lower i1.content) (lower query) = false)
    (h2 : strContains (lower i2.content) (lower query) = true) :
    MemoryStore.scoreItem query now i1 ≤ MemoryStore.scoreItem query now i2 := by
  simp only [MemoryStore.scoreItem]
  rw [hcat, hpri, hts, h1, h2]
  simp only [Bool.false_eq_true, if_false, if_true]
  have hle1 : ((words (lower query).data).toFinset ∩
      (words (lower i1.content).data).toFinset).card ≤
      (words (lower query).data).toFinset.card :=
    Finset.card_le_card Finset.inter_subset_left
  have hle2 : (words (lower query).data).toFinset.card ≤
      ((words (lower query).data).toFinset ∩
        (words (lower i2.content).data).toFinset).card + 2 :=
    words_card_le_of_contains (lower query).data (lower i2.content).data h2
  have hle1' := (Nat.cast_le (α := Int)).mpr hle1
  have hle2' := (Nat.cast_le (α := Int)).mpr hle2
  push_cast at hle2'
  linarith

/-- C6 witness: a concrete instance of score_monotone_substring with all
hypotheses discharged by evaluation. -/
theorem score_monotone_substring_witness :
    MemoryStore.scoreItem "x" 0 missItem ≤ MemoryStore.scoreItem "x" 0 hitItem :=
  score_monotone_substring "x" 0 missItem hitItem (by decide) (by decide) (by decide)
    (by decide) (by decide)

/-! ## Stable sort lemmas -/

theorem keyLe_total (a b : Int × Int) (h : ¬keyLe a b) : keyLe b a := by
  obtain ⟨a1, a2⟩ := a
  obtain ⟨b1, b2⟩ := b
  unfold keyLe at *
  simp only at *
  omega

theorem keyLt_of_not_le (a b : Int × Int) (h : ¬keyLe a b) : b ≠ a := by
  obtain ⟨a1, a2⟩ := a
  obtain ⟨b1, b2⟩ := b
  unfold keyLe at h
  simp only [Prod.mk.injEq, ne_eq, not_and]
  intro h1
  omega

theorem mem_insertK {α : Type} (key : α → Int × Int) (x y : α) (l : List α) :
    y ∈ insertK key x l ↔ y = x ∨ y ∈ l := by
  induction l with
  | nil => simp [insertK]
  | cons q qs ih =>
    rw [insertK]
    by_cases h : keyLe (key x) (key q)
    · rw [if_pos h]
      simp only [List.mem_cons]
    · rw [if_neg h]
      simp only [List.mem_cons, ih]
      tauto

theorem pairwise_insertK {α : Type} (key : α → Int × Int) (x : α) (l : List α)
    (hl : List.Pairwise (fun a b => keyLe (key a) (key b)) l) :
    List.Pairwise (fun a b => keyLe (key a) (key b)) (insertK key x l) := by
  induction l with
  | nil => simp [insertK]
  | cons q qs ih =>
    rw [List.pairwise_cons] at hl
    obtain ⟨hq, hqs⟩ := hl
    rw [insertK]
    by_cases h : keyLe (key x) (key q)
    · rw [if_pos h, List.pairwise_cons]
      refine ⟨?_, List.pairwise_cons.mpr ⟨hq, hqs⟩⟩
      intro b hb
      rcases List.mem_cons.mp hb with rfl | hb'
      · exact h
      · rcases h with hlt | ⟨heq, hle⟩
        · rcases hq b hb' with h2 | ⟨h2, h3⟩
          · exact Or.inl (lt_trans hlt h2)
          · exact Or.inl (h2 ▸ hlt)
        · rcases hq b hb' with h2 | ⟨h2, h3⟩
          · exact Or.inl (heq ▸ h2)
          · exact Or.inr ⟨heq.trans h2, le_trans hle h3⟩
    · rw [if_neg h, List.pairwise_cons]
      refine ⟨?_, ih hqs⟩
      intro b hb
      rcases (mem_insertK key x b qs).mp hb with rfl | hb'
      · exact keyLe_total _ _ h
      · exact hq b hb'

theorem sortByKey_pairwise {α : Type} (key : α → Int × Int) (l : List α) :
    List.Pairwise (fun a b => keyLe (key a) (key b)) (sortByKey key l) := by
  induction l with
  | nil => simp [sortByKey]
  | cons x xs ih => exact pairwise_insertK key x _ ih

theorem mem_sortByKey {α : Type} (key : α → Int × Int) (y : α) (l : List α) :
    y ∈ sortByKey key l ↔ y ∈ l := by
  induction l with
  | nil => simp [sortByKey]
  | cons x xs ih =>
    rw [sortByKey, mem_insertK, ih, List.mem_cons]

theorem filter_key_insertK {α : Type} [DecidableEq α] (key : α → Int × Int)
    (k : Int × Int) (x : α) (l : List α) :
    (insertK key x l).filter (fun y => decide (key y = k)) =
      if key x = k then x :: l.filter (fun y => decide (key y = k))
      else l.filter (fun y => decide (key y = k)) := by
  induction l with
  | nil =>
    simp only [insertK, List.filter]
    by_cases h : key x = k
    · simp [h]
    · simp [h]
  | cons q qs ih =>
    rw [insertK]
    by_cases h : keyLe (key x) (key q)
    · rw [if_pos h]
      by_cases hx : key x = k
      · simp [List.filter_cons, hx]
      · simp [List.filter_cons, hx]
    · rw [if_neg h, List.filter_cons, ih]
      by_cases hx : key x = k
      · have hq : ¬ key q = k := fun hqk =>
          keyLt_of_not_le (key x) (key q) h (hqk.trans hx.symm)
        simp [List.filter_cons, hx, hq]
      · simp [List.filter_cons, hx]

theorem sortByKey_filter_key {α : Type} [DecidableEq α] (key : α → Int × Int)
    (k : Int × Int) (l : List α) :
    (sortByKey key l).filter (fun y => decide (key y = k)) =
      l.filter (fun y => decide (key y = k)) := by
  induction l with
  | nil => simp [sortByKey]
  | cons x xs ih =>
    rw [sortByKey, filter_key_insertK, List.filter_cons]
    by_cases hx : key x = k
    · simp [hx, ih]
    · simp [hx, ih]

/-! ## Retrieval ranking -/

theorem mem_scoredOf (st : Store) (query : String) (now : Int) (p : Int × Item)
    (hp : p ∈ MemoryStore.scoredOf st query now) :
    0 < p.1 ∧ p.2 ∈ st.memories ∧ p.1 = MemoryStore.scoreItem query now p.2 := by
  unfold MemoryStore.scoredOf at hp
  rw [List.mem_filter] at hp
  obtain ⟨hmap, hpos⟩ := hp
  rw [List.mem_map] at hmap
  obtain ⟨it, hit, rfl⟩ := hmap
  exact ⟨by simpa using hpos, hit, rfl⟩

/-- C5.  get_relevant keeps only items with positive score, orders them
by weakly descending score with equal scores kept in storage order (the
sort is stable: filtering any fixed score commutes with it), and returns
at most maxItems items (the source defaults maxItems to 20). -/
theorem get_relevant_spec (st : Store) (query : String) (now : Int) (maxItems : Nat) :
    (∀ it ∈ MemoryStore.get_relevant st query now maxItems,
        0 < MemoryStore.scoreItem query now it) ∧
    List.Pairwise
      (fun a b => MemoryStore.scoreItem query now b ≤ MemoryStore.scoreItem query now a)
      (MemoryStore.get_relevant st query now maxItems) ∧
    (∀ s : Int,
      (MemoryStore.sortedScored st query now).filter (fun p => decide (p.1 = s)) =
        (MemoryStore.scoredOf st query now).filter (fun p => decide (p.1 = s))) ∧
    (MemoryStore.get_relevant st query now maxItems).length ≤ maxItems := by
  have hmem : ∀ p ∈ (MemoryStore.sortedScored st query now).take maxItems,
      p ∈ MemoryStore.scoredOf st query now := by
    intro p hp
    exact (mem_sortByKey _ p _).mp (List.take_subset _ _ hp)
  refine ⟨?_, ?_, ?_, ?_⟩
  · intro it hit
    unfold MemoryStore.get_relevant at hit
    rw [List.mem_map] at hit
    obtain ⟨p, hp, hpe⟩ := hit
    obtain ⟨hpos, _, hsc⟩ := mem_scoredOf st query now p (hmem p hp)
    rw [← hpe, ← hsc]
    exact hpos
  · unfold MemoryStore.get_relevant
    rw [List.pairwise_map]
    have hpw := sortByKey_pairwise (fun p : Int × Item => (-p.1, 0))
      (MemoryStore.scoredOf st query now)
    have hpw2 := List.Pairwise.sublist
      (List.take_sublist maxItems (MemoryStore.sortedScored st query now))
      (by exact hpw)
    refine List.Pairwise.imp_of_mem ?_ hpw2
    intro a b ha hb hr
    obtain ⟨_, _, hsa⟩ := mem_scoredOf st query now a (hmem a ha)
    obtain ⟨_, _, hsb⟩ := mem_scoredOf st query now b (hmem b hb)
    rw [← hsa, ← hsb]
    unfold keyLe at hr
    simp only at hr
    omega
  · intro s
    have hcong : ∀ l : List (Int × Item),
        l.filter (fun p => decide (p.1 = s)) =
          l.filter (fun p => decide ((-p.1, (0 : Int)) = (-s, (0 : Int)))) := by
      intro l
      refine List.filter_congr ?_
      intro p _
      rcases Decidable.em (p.1 = s) with h | h
      · simp [h]
      · simp only [decide_eq_decide, Prod.mk.injEq]
        constructor
        · intro h2
          exact ⟨by omega, by simp⟩
        · rintro ⟨h2, _⟩
          omega
    rw [hcong, hcong ((MemoryStore.scoredOf st query now))]
    exact sortByKey_filter_key (fun p : Int × Item => (-p.1, 0)) (-s, 0) _
  · unfold MemoryStore.get_relevant
    rw [List.length_map]
    exact List.length_take_le _ _

/-- C5 witness: the spec of get_relevant applied to a concrete store and
query, with the membership hypothesis discharged by evaluation. -/
theorem get_relevant_spec_witness :
    0 < MemoryStore.scoreItem "x" 0 hitItem ∧
    ((MemoryStore.sortedScored wStore "x" 0).filter (fun p => decide (p.1 = 10)) =
      (MemoryStore.scoredOf wStore "x" 0).filter (fun p => decide (p.1 = 10))) ∧
    (MemoryStore.get_relevant wStore "x" 0 20).length ≤ 20 := by
  obtain ⟨h1, _, h3, h4⟩ := get_relevant_spec wStore "x" 0 20
  exact ⟨h1 hitItem (by decide), h3 10, h4⟩

/-! ## Compression lemmas -/

theorem summarize_single_id {τ : Type} (E : Encoder τ) (item : Item) (b : Int) :
    (CompressionStrategy.summarize_single E item b).id = item.id := rfl

theorem summarize_single_compressed {τ : Type} (E : Encoder τ) (item : Item) (b : Int) :
    (CompressionStrategy.summarize_single E item b).compressed = true := rfl

theorem summarize_foldl_eq_map {τ : Type} (E : Encoder τ) (budget : Int)
    (l : List Item) (acc : List Item) :
    l.foldl
      (fun res item =>
        if item.tokens ≤ budget then res ++ [item]
        else res ++ [CompressionStrategy.summarize_single E item budget]) acc =
      acc ++ l.map
        (fun item =>
          if item.tokens ≤ budget then item
          else CompressionStrategy.summarize_single E item budget) := by
  induction l generalizing acc with
  | nil => simp
  | cons x xs ih =>
    rw [List.foldl_cons, List.map_cons, ih]
    by_cases hx : x.tokens ≤ budget
    · rw [if_pos hx, if_pos hx]
      simp
    · rw [if_neg hx, if_neg hx]
      simp

theorem summarize_items_mem {τ : Type} (E : Encoder τ) (items : List Item)
    (targetTokens : Int) (hne : items ≠ []) :
    ∃ res, CompressionStrategy.summarize_items E items targetTokens = some res ∧
      ∀ it ∈ items, ∃ d ∈ res, d = it ∨ (d.id = it.id ∧ d.compressed = true) := by
  unfold CompressionStrategy.summarize_items
  rw [if_neg (by simpa [List.length_eq_zero] using hne)]
  refine ⟨_, rfl, ?_⟩
  intro it hit
  rw [summarize_foldl_eq_map]
  set budget := max 50 (Int.fdiv targetTokens items.length) with hbudget
  by_cases hfit : it.tokens ≤ budget
  · refine ⟨it, ?_, Or.inl rfl⟩
    simp only [List.nil_append]
    apply List.mem_map.mpr
    exact ⟨it, hit, by rw [if_pos hfit]⟩
  · refine ⟨CompressionStrategy.summarize_single E it budget, ?_, Or.inr ⟨rfl, rfl⟩⟩
    simp only [List.nil_append]
    apply List.mem_map.mpr
    exact ⟨it, hit, by rw [if_neg hfit]⟩

theorem compress_foldl_mono {τ : Type} (E : Encoder τ) (targetTokens : Int)
    (l : List Item) (acc : List Item × Int × Int) (y : Item) (hy : y ∈ acc.1) :
    y ∈ (l.foldl (CompressionStrategy.compressStep E targetTokens) acc).1 := by
  induction l generalizing acc with
  | nil => exact hy
  | cons x xs ih =>
    rw [List.foldl_cons]
    apply ih
    obtain ⟨res, cur, rem⟩ := acc
    unfold CompressionStrategy.compressStep
    simp only
    split
    · simp only [List.mem_append]
      exact Or.inl hy
    · split
      · simp only [List.mem_append]
        exact Or.inl hy
      · exact hy

/-- C3.  Every critical-priority input item survives smart_compress,
either verbatim or as a compressed derivative with the same id. -/
theorem critical_items_preserved {τ : Type} (E : Encoder τ) (items : List Item)
    (targetTokens : Int) (pc : Option (List String)) (it : Item)
    (hmem : it ∈ items) (hcrit : it.priority = "critical") :
    ∃ res, CompressionStrategy.smart_compress E items targetTokens pc = some res ∧
      ∃ d ∈ res, d = it ∨ (d.id = it.id ∧ d.compressed = true) := by
  have hprot : it ∈ CompressionStrategy.protectedOf
      (CompressionStrategy.preserveList pc) items := by
    unfold CompressionStrategy.protectedOf CompressionStrategy.isProt
    rw [List.mem_filter]
    exact ⟨hmem, by simp [hcrit]⟩
  simp only [CompressionStrategy.smart_compress]
  split
  · obtain ⟨res, hres, hall⟩ :=
      summarize_items_mem E _ targetTokens (List.ne_nil_of_mem hprot)
    exact ⟨res, hres, hall it hprot⟩
  · refine ⟨_, rfl, it, ?_, Or.inl rfl⟩
    exact compress_foldl_mono E targetTokens _ _ it hprot

/-- C3 witness: a concrete critical item kept through a zero budget. -/
theorem critical_items_preserved_witness :
    ∃ res, CompressionStrategy.smart_compress charEnc [critItem] 0 none = some res ∧
      ∃ d ∈ res, d = critItem ∨ (d.id = critItem.id ∧ d.compressed = true) :=
  critical_items_preserved charEnc [critItem] 0 none critItem (by simp) (by decide)

/-- C2 counterexample: with no protected item and targetTokens 0 the
summarization branch divides by len(items) = 0, so smart_compress
raises (modelled as none) instead of returning a result. -/
theorem smart_compress_raises_counterexample :
    CompressionStrategy.smart_compress charEnc ([] : List Item) 0 none = none := by decide

/-- C2 amended: smart_compress returns a result whenever the protected
partition is non-empty or targetTokens is positive; the only failing
inputs are those where both fail, which divide by zero in the
budget-infeasible branch. -/
theorem smart_compress_total_amended {τ : Type} (E : Encoder τ) (items : List Item)
    (targetTokens : Int) (pc : Option (List String))
    (h : CompressionStrategy.protectedOf (CompressionStrategy.preserveList pc) items ≠ []
      ∨ 0 < targetTokens) :
    (CompressionStrategy.smart_compress E items targetTokens pc).isSome = true := by
  simp only [CompressionStrategy.smart_compress]
  split
  · next hge =>
    have hne : CompressionStrategy.protectedOf
        (CompressionStrategy.preserveList pc) items ≠ [] := by
      rcases h with hne | hpos
      · exact hne
      · intro hnil
        rw [hnil] at hge
        unfold listTokens at hge
        simp at hge
        omega
    unfold CompressionStrategy.summarize_items
    rw [if_neg (by simpa [List.length_eq_zero] using hne)]
    simp
  · simp

/-- C2 amended witness: an empty item list with a positive budget
compresses without raising. -/
theorem smart_compress_total_amended_witness :
    (CompressionStrategy.smart_compress charEnc ([] : List Item) 5 none).isSome = true :=
  smart_compress_total_amended charEnc [] 5 none (Or.inr (by decide))

/-- C1 evaluated at a failing input: both items are compressible, the
protected partition is empty (its token sum 0 is at most the target
101), yet the result holds 102 tokens, exceeding the target.  The
summarization branch of the accumulation loop uses the stale
remaining_budget computed before any whole item was appended, so the
summarized second item overshoots the budget. -/
theorem compression_bound_violation :
    listTokens (CompressionStrategy.protectedOf
      (CompressionStrategy.preserveList none) [bigItem, smallItem]) ≤ 101 ∧
    (CompressionStrategy.smart_compress charEnc [bigItem, smallItem] 101 none).map listTokens
      = some 102 ∧
    ¬ ((102 : Int) ≤ 101) :=
  ⟨by decide, by decide, by decide⟩

/-- C9.  Passing an explicitly empty preserve list is the same call as
passing no list at all: both fall back to the default
["critical", "error", "arch"]. -/
theorem preserve_categories_empty_default {τ : Type} (E : Encoder τ)
    (items : List Item) (targetTokens : Int) :
    CompressionStrategy.smart_compress E items targetTokens (some []) =
      CompressionStrategy.smart_compress E items targetTokens none := rfl

/-! ## Store dictionary lemmas -/

theorem listTokens_append (u v : List Item) :
    listTokens (u ++ v) = listTokens u + listTokens v := by
  unfold listTokens
  rw [List.map_append, List.sum_append]

theorem alookup_append_self_of_none (c : String) (l : List (String × Agg)) (a : Agg)
    (h : alookup c l = none) : alookup c (l ++ [(c, a)]) = some a := by
  induction l with
  | nil => simp [alookup]
  | cons p ps ih =>
    obtain ⟨p1, p2⟩ := p
    simp only [alookup] at h
    simp only [List.cons_append, alookup]
    by_cases hp : p1 = c
    · rw [if_pos hp] at h
      cases h
    · rw [if_neg hp] at h ⊢
      exact ih h

theorem alookup_append_of_ne (c c' : String) (l : List (String × Agg)) (a : Agg)
    (h : c' ≠ c) : alookup c' (l ++ [(c, a)]) = alookup c' l := by
  induction l with
  | nil =>
    simp only [List.nil_append, alookup]
    rw [if_neg (Ne.symm h)]
  | cons p ps ih =>
    obtain ⟨p1, p2⟩ := p
    simp only [List.cons_append, alookup]
    by_cases hp : p1 = c'
    · rw [if_pos hp, if_pos hp]
    · rw [if_neg hp, if_neg hp]
      exact ih

theorem alookup_catsBump_self (cats : List (String × Agg)) (c : String) (d e : Int)
    (a : Agg) (h : alookup c cats = some a) :
    alookup c (catsBump cats c d e) = some ⟨a.count + d, a.tokens + e⟩ := by
  induction cats with
  | nil => cases h
  | cons p ps ih =>
    obtain ⟨p1, p2⟩ := p
    simp only [alookup] at h
    simp only [catsBump, List.map_cons]
    by_cases hp : p1 = c
    · rw [if_pos hp] at h
      obtain rfl : p2 = a := by cases h; rfl
      rw [if_pos hp]
      simp only [alookup]
      rw [if_pos hp]
    · rw [if_neg hp] at h
      rw [if_neg hp]
      simp only [alookup]
      rw [if_neg hp]
      exact ih h

theorem alookup_catsBump_ne (cats : List (String × Agg)) (c c' : String) (d e : Int)
    (h : c' ≠ c) : alookup c' (catsBump cats c d e) = alookup c' cats := by
  induction cats with
  | nil => rfl
  | cons p ps ih =>
    obtain ⟨p1, p2⟩ := p
    simp only [catsBump, List.map_cons, alookup]
    by_cases hp : p1 = c
    · have hp' : ¬ (p1 = c') := fun hh => h (hh.symm.trans hp)
      rw [if_pos hp]
      simp only [alookup]
      rw [if_neg hp', if_neg hp']
      exact ih
    · rw [if_neg hp]
      simp only [alookup]
      by_cases hpc : p1 = c'
      · rw [if_pos hpc, if_pos hpc]
      · rw [if_neg hpc, if_neg hpc]
        exact ih

/-! ## removeFirst structure -/

theorem removeFirst_none_iff (arg : String) (l : List Item) :
    MemoryStore.removeFirst arg l = none ↔
      l.find? (MemoryStore.itemMatches arg) = none := by
  induction l with
  | nil => simp [MemoryStore.removeFirst]
  | cons a as ih =>
    by_cases ha : MemoryStore.itemMatches arg a = true
    · rw [MemoryStore.removeFirst, if_pos ha, List.find?_cons_of_pos _ ha]
      simp
    · rw [MemoryStore.removeFirst, if_neg ha,
        List.find?_cons_of_neg _ (by simpa using ha)]
      rw [← ih]
      cases h : MemoryStore.removeFirst arg as with
      | none => simp
      | some pr => simp

theorem removeFirst_decomp (arg : String) (l : List Item) (it : Item) (rest : List Item)
    (h : MemoryStore.removeFirst arg l = some (it, rest)) :
    ∃ l1 l2, l = l1 ++ it :: l2 ∧ rest = l1 ++ l2 ∧
      (∀ x ∈ l1, MemoryStore.itemMatches arg x = false) ∧
      MemoryStore.itemMatches arg it = true := by
  induction l generalizing it rest with
  | nil => cases h
  | cons a as ih =>
    rw [MemoryStore.removeFirst] at h
    by_cases ha : MemoryStore.itemMatches arg a = true
    · rw [if_pos ha] at h
      simp only [Option.some.injEq, Prod.mk.injEq] at h
      obtain ⟨rfl, rfl⟩ := h
      exact ⟨[], as, rfl, rfl, by simp, ha⟩
    · rw [if_neg ha] at h
      cases hr : MemoryStore.removeFirst arg as with
      | none =>
        rw [hr] at h
        have h' : (none : Option (Item × List Item)) = some (it, rest) := h
        cases h'
      | some pr =>
        obtain ⟨r, rest'⟩ := pr
        rw [hr] at h
        have h' : some (r, a :: rest') = some (it, rest) := h
        simp only [Option.some.injEq, Prod.mk.injEq] at h'
        obtain ⟨rfl, rfl⟩ := h'
        obtain ⟨l1, l2, h1, h2, h3, h4⟩ := ih r rest' hr
        refine ⟨a :: l1, l2, ?_, ?_, ?_, h4⟩
        · rw [h1]
          rfl
        · rw [h2]
          rfl
        · intro x hx
          rcases List.mem_cons.mp hx with rfl | hx'
          · simpa using ha
          · exact h3 x hx'

theorem find?_of_prefix_false {α : Type} (p : α → Bool) (l1 l2 : List α) (it : α)
    (h1 : ∀ x ∈ l1, p x = false) (h2 : p it = true) :
    (l1 ++ it :: l2).find? p = some it := by
  induction l1 with
  | nil => simpa using List.find?_cons_of_pos l2 h2
  | cons a as ih =>
    rw [List.cons_append, List.find?_cons_of_neg _ (by simp [h1 a (by simp)])]
    exact ih (fun x hx => h1 x (by simp [hx]))

/-! ## Aggregate invariant preservation -/

theorem alookup_bumpInit_some (cats : List (String × Agg)) (c : String) (tk : Int)
    (a : Agg) (h : alookup c cats = some a) :
    alookup c (catsBump (catsInit cats c) c 1 tk) = some ⟨a.count + 1, a.tokens + tk⟩ := by
  have hinit : catsInit cats c = cats := by
    unfold catsInit
    rw [h]
    rfl
  rw [hinit]
  exact alookup_catsBump_self cats c 1 tk a h

theorem alookup_bumpInit_none (cats : List (String × Agg)) (c : String) (tk : Int)
    (h : alookup c cats = none) :
    alookup c (catsBump (catsInit cats c) c 1 tk) = some ⟨1, tk⟩ := by
  have hinit : catsInit cats c = cats ++ [(c, ⟨0, 0⟩)] := by
    unfold catsInit
    rw [h]
    rfl
  rw [hinit]
  have hself := alookup_catsBump_self (cats ++ [(c, ⟨0, 0⟩)]) c 1 tk ⟨0, 0⟩
    (alookup_append_self_of_none c cats ⟨0, 0⟩ h)
  simpa using hself

theorem alookup_bumpInit_ne (cats : List (String × Agg)) (c cat : String) (tk : Int)
    (hcc : cat ≠ c) :
    alookup cat (catsBump (catsInit cats c) c 1 tk) = alookup cat cats := by
  rw [alookup_catsBump_ne _ c cat 1 tk hcc]
  unfold catsInit
  by_cases hs : (alookup c cats).isSome = true
  · rw [if_pos hs]
  · rw [if_neg hs]
    exact alookup_append_of_ne c cat cats _ hcc

theorem alookup_bumpInit_isSome (cats : List (String × Agg)) (c : String) (tk : Int) :
    (alookup c (catsBump (catsInit cats c) c 1 tk)).isSome = true := by
  cases h : alookup c cats with
  | some a => rw [alookup_bumpInit_some cats c tk a h]; rfl
  | none => rw [alookup_bumpInit_none cats c tk h]; rfl

theorem storeInv_empty : StoreInv emptyStore := by
  intro cat
  constructor
  · intro agg hagg
    cases hagg
  · intro
    rfl

theorem storeInv_add {τ : Type} (E : Encoder τ) (newId : String) (now : Int) (st : Store)
    (category content priority : String) (hinv : StoreInv st) :
    StoreInv (MemoryStore.add E newId now st category content priority).2 := by
  rcases hpc : parseCat category with ⟨c, sub⟩
  set item : Item :=
    { id := newId, category := c, subcategory := sub, content := content,
      priority := priority, tokens := (TokenCounter.count E content : Int),
      timestamp := now, compressed := false } with hitem
  have hadd : (MemoryStore.add E newId now st category content priority).2 =
      { memories := st.memories ++ [item],
        categories := catsBump (catsInit st.categories c) c 1 item.tokens } := by
    simp only [MemoryStore.add, hpc]
  rw [hadd]
  intro cat
  by_cases hcc : cat = c
  · subst hcc
    have hfilone : List.filter (fun m => decide (m.category = cat)) [item] = [item] := by
      simp [hitem]
    constructor
    · intro agg hagg
      simp only at hagg ⊢
      cases hold : alookup cat st.categories with
      | some a =>
        rw [alookup_bumpInit_some st.categories cat item.tokens a hold] at hagg
        simp only [Option.some.injEq] at hagg
        subst hagg
        obtain ⟨hc1, hc2⟩ := (hinv cat).1 a hold
        have hlt : listTokens [item] = item.tokens := by
          simp [listTokens]
        rw [List.filter_append, hfilone, List.length_append, listTokens_append, hlt]
        refine ⟨?_, ?_⟩
        · show a.count + 1 = _
          simp only [List.length_cons, List.length_nil]
          push_cast
          omega
        · show a.tokens + item.tokens = _
          omega
      | none =>
        rw [alookup_bumpInit_none st.categories cat item.tokens hold] at hagg
        simp only [Option.some.injEq] at hagg
        subst hagg
        have hfil : st.memories.filter (fun m => decide (m.category = cat)) = [] :=
          (hinv cat).2 hold
        rw [List.filter_append, hfil, hfilone]
        refine ⟨?_, ?_⟩
        · show (1 : Int) = _
          simp
        · show item.tokens = _
          simp [listTokens]
    · intro hnone
      simp only at hnone
      have := alookup_bumpInit_isSome st.categories cat item.tokens
      rw [hnone] at this
      cases this
  · have hfilone : List.filter (fun m => decide (m.category = cat)) [item] = [] := by
      simp [hitem]
      exact fun hh => hcc hh.symm
    constructor
    · intro agg hagg
      simp only at hagg ⊢
      rw [alookup_bumpInit_ne st.categories c cat item.tokens hcc] at hagg
      rw [List.filter_append, hfilone, List.append_nil]
      exact (hinv cat).1 agg hagg
    · intro hnone
      simp only at hnone ⊢
      rw [alookup_bumpInit_ne st.categories c cat item.tokens hcc] at hnone
      rw [List.filter_append, hfilone, List.append_nil]
      exact (hinv cat).2 hnone

theorem storeInv_remove (st : Store) (arg : String) (hinv : StoreInv st) :
    StoreInv (MemoryStore.remove st arg).2 := by
  cases hrf : MemoryStore.removeFirst arg st.memories with
  | none =>
    have hrem : (MemoryStore.remove st arg).2 = st := by
      simp only [MemoryStore.remove, hrf]
    rw [hrem]
    exact hinv
  | some pr =>
    obtain ⟨it, mems⟩ := pr
    obtain ⟨l1, l2, hl, hrest, hfalse, hmatch⟩ :=
      removeFirst_decomp arg st.memories it mems hrf
    by_cases hcs : (alookup it.category st.categories).isSome = true
    · obtain ⟨a0, ha0⟩ := Option.isSome_iff_exists.mp hcs
      have hrem : (MemoryStore.remove st arg).2 =
          { memories := mems,
            categories := catsBump st.categories it.category (-1) (-it.tokens) } := by
        simp [MemoryStore.remove, hrf, hcs]
      rw [hrem]
      subst hrest
      intro cat
      by_cases hcc : cat = it.category
      · subst hcc
        constructor
        · intro agg hagg
          simp only at hagg ⊢
          rw [alookup_catsBump_self st.categories it.category (-1) (-it.tokens) a0 ha0]
            at hagg
          simp only [Option.some.injEq] at hagg
          subst hagg
          obtain ⟨hc1, hc2⟩ := (hinv it.category).1 a0 ha0
          rw [hl, List.filter_append, List.filter_cons] at hc1 hc2
          rw [if_pos (by simp)] at hc1 hc2
          rw [List.filter_append]
          refine ⟨?_, ?_⟩
          · show a0.count + (-1) = _
            rw [List.length_append] at hc1
            rw [List.length_append]
            simp only [List.length_cons] at hc1
            push_cast at hc1 ⊢
            omega
          · show a0.tokens + (-it.tokens) = _
            rw [listTokens_append] at hc2
            rw [listTokens_append]
            have hcons : listTokens
                (it :: List.filter (fun m => decide (m.category = it.category)) l2) =
                it.tokens +
                  listTokens (List.filter (fun m => decide (m.category = it.category)) l2) := by
              simp [listTokens]
            rw [hcons] at hc2
            omega
        · intro hnone
          simp only at hnone
          rw [alookup_catsBump_self st.categories it.category (-1) (-it.tokens) a0 ha0]
            at hnone
          cases hnone
      · constructor
        · intro agg hagg
          simp only at hagg ⊢
          rw [alookup_catsBump_ne st.categories it.category cat (-1) (-it.tokens) hcc] at hagg
          obtain ⟨hc1, hc2⟩ := (hinv cat).1 agg hagg
          rw [hl, List.filter_append, List.filter_cons] at hc1 hc2
          rw [if_neg (by simp; exact fun hh => hcc hh.symm)] at hc1 hc2
          rw [List.filter_append]
          exact ⟨hc1, hc2⟩
        · intro hnone
          simp only at hnone ⊢
          rw [alookup_catsBump_ne st.categories it.category cat (-1) (-it.tokens) hcc] at hnone
          have hfil := (hinv cat).2 hnone
          rw [hl, List.filter_append, List.filter_cons] at hfil
          rw [if_neg (by simp; exact fun hh => hcc hh.symm)] at hfil
          rw [List.filter_append]
          exact hfil
    · exfalso
      have hnone : alookup it.category st.categories = none :=
        Option.not_isSome_iff_eq_none.mp (by simpa using hcs)
      have hfil := (hinv it.category).2 hnone
      rw [hl] at hfil
      have hmem : it ∈ List.filter (fun m => decide (m.category = it.category))
          (l1 ++ it :: l2) := by
        rw [List.mem_filter]
        exact ⟨by simp, by simp⟩
      rw [hfil] at hmem
      cases hmem

theorem storeInv_runOps {τ : Type} (E : Encoder τ) (ops : List Op) (st : Store)
    (hinv : StoreInv st) : StoreInv (runOps E ops st) := by
  induction ops generalizing st with
  | nil => exact hinv
  | cons op ops ih =>
    unfold runOps at ih ⊢
    rw [List.foldl_cons]
    apply ih
    cases op with
    | add newId now category content priority =>
      exact storeInv_add E newId now st category content priority hinv
    | remove arg => exact storeInv_remove st arg hinv

/-- C4.  From the empty store, after any sequence of add and remove
operations every aggregate entry counts exactly the live items of its
category and sums exactly their token counts. -/
theorem category_aggregates_consistent {τ : Type} (E : Encoder τ) (ops : List Op)
    (cat : String) (agg : Agg)
    (hagg : alookup cat (runOps E ops emptyStore).categories = some agg) :
    agg.count = (((runOps E ops emptyStore).memories.filter
        (fun m => decide (m.category = cat))).length : Int) ∧
    agg.tokens = listTokens ((runOps E ops emptyStore).memories.filter
        (fun m => decide (m.category = cat))) :=
  (storeInv_runOps E ops emptyStore storeInv_empty cat).1 agg hagg

/-- C4 witness: one add gives the category an aggregate of one item and
five tokens, matching the live items. -/
theorem category_aggregates_consistent_witness :
    (⟨1, 5⟩ : Agg).count =
      (((runOps charEnc [Op.add "i1" 0 "arch" "hello" "normal"] emptyStore).memories.filter
          (fun m => decide (m.category = "arch"))).length : Int) ∧
    (⟨1, 5⟩ : Agg).tokens =
      listTokens ((runOps charEnc [Op.add "i1" 0 "arch" "hello" "normal"] emptyStore).memories.filter
          (fun m => decide (m.category = "arch"))) :=
  category_aggregates_consistent charEnc [Op.add "i1" 0 "arch" "hello" "normal"]
    "arch" ⟨1, 5⟩ (by decide)

/-- C7.  remove returns the first item matching by id equality or
content substring and deletes exactly it, decrementing its category
aggregate when present and leaving other categories alone; with no
match it returns none and leaves the store unchanged. -/
theorem remove_spec (st : Store) (arg : String) :
    (st.memories.find? (MemoryStore.itemMatches arg) = none →
      MemoryStore.remove st arg = (none, st)) ∧
    (∀ it, st.memories.find? (MemoryStore.itemMatches arg) = some it →
      (MemoryStore.remove st arg).1 = some it ∧
      (∃ l1 l2, st.memories = l1 ++ it :: l2 ∧
        (∀ x ∈ l1, MemoryStore.itemMatches arg x = false) ∧
        (MemoryStore.remove st arg).2.memories = l1 ++ l2) ∧
      (∀ c, c ≠ it.category →
        alookup c (MemoryStore.remove st arg).2.categories = alookup c st.categories) ∧
      (∀ a, alookup it.category st.categories = some a →
        alookup it.category (MemoryStore.remove st arg).2.categories =
          some ⟨a.count - 1, a.tokens - it.tokens⟩) ∧
      (alookup it.category st.categories = none →
        (MemoryStore.remove st arg).2.categories = st.categories)) := by
  constructor
  · intro hf
    have hrf : MemoryStore.removeFirst arg st.memories = none :=
      (removeFirst_none_iff arg st.memories).mpr hf
    simp only [MemoryStore.remove, hrf]
  · intro it hf
    cases hrf : MemoryStore.removeFirst arg st.memories with
    | none =>
      rw [(removeFirst_none_iff arg st.memories).mp hrf] at hf
      cases hf
    | some pr =>
      obtain ⟨it0, rest⟩ := pr
      obtain ⟨l1, l2, hl, hrest, hfalse, hmatch⟩ :=
        removeFirst_decomp arg st.memories it0 rest hrf
      have hfind : st.memories.find? (MemoryStore.itemMatches arg) = some it0 := by
        rw [hl]
        exact find?_of_prefix_false (MemoryStore.itemMatches arg) l1 l2 it0 hfalse hmatch
      obtain rfl : it0 = it := by
        rw [hfind] at hf
        cases hf
        rfl
      by_cases hcs : (alookup it0.category st.categories).isSome = true
      · have hrem : MemoryStore.remove st arg =
            (some it0,
              { memories := rest,
                categories := catsBump st.categories it0.category (-1) (-it0.tokens) }) := by
          simp [MemoryStore.remove, hrf, hcs]
        rw [hrem]
        obtain ⟨a0, ha0⟩ := Option.isSome_iff_exists.mp hcs
        refine ⟨rfl, ⟨l1, l2, hl, hfalse, hrest⟩, ?_, ?_, ?_⟩
        · intro c hc
          exact alookup_catsBump_ne st.categories it0.category c (-1) (-it0.tokens) hc
        · intro a ha
          have hbump := alookup_catsBump_self st.categories it0.category (-1) (-it0.tokens) a ha
          rw [hbump]
          have h1 : a.count + -1 = a.count - 1 := by omega
          have h2 : a.tokens + -it0.tokens = a.tokens - it0.tokens := by omega
          rw [h1, h2]
        · intro hnone
          rw [hnone] at ha0
          cases ha0
      · have hrem : MemoryStore.remove st arg =
            (some it0,
              { memories := rest,
                categories := st.categories }) := by
          simp [MemoryStore.remove, hrf, hcs]
        rw [hrem]
        have hnone : alookup it0.category st.categories = none :=
          Option.not_isSome_iff_eq_none.mp (by simpa using hcs)
        refine ⟨rfl, ⟨l1, l2, hl, hfalse, hrest⟩, ?_, ?_, ?_⟩
        · intro c _
          rfl
        · intro a ha
          rw [hnone] at ha
          cases ha
        · intro _
          rfl

/-- C7 witness: the two outcomes of remove_spec at a concrete store, a
missing argument and a content-substring match. -/
theorem remove_spec_witness :
    MemoryStore.remove rStore "zzz" = (none, rStore) ∧
    (MemoryStore.remove rStore "world").1 = some rItem2 := by
  refine ⟨(remove_spec rStore "zzz").1 (by decide), ?_⟩
  exact ((remove_spec rStore "world").2 rItem2 (by decide)).1

/-- C10.  On a non-empty store, remove with the empty string always
pops and returns the very first item, because the empty string is a
substring of every content. -/
theorem remove_empty_string_first (st : Store) (it : Item) (rest : List Item)
    (h : st.memories = it :: rest) :
    (MemoryStore.remove st "").1 = some it ∧
      (MemoryStore.remove st "").2.memories = rest := by
  have hm : MemoryStore.itemMatches "" it = true := by
    unfold MemoryStore.itemMatches
    rw [strContains_empty]
    simp
  have hrf : MemoryStore.removeFirst "" st.memories = some (it, rest) := by
    rw [h, MemoryStore.removeFirst, if_pos hm]
  constructor
  · simp only [MemoryStore.remove, hrf]
  · by_cases hcs : (alookup it.category st.categories).isSome = true
    · simp [MemoryStore.remove, hrf, hcs]
    · simp [MemoryStore.remove, hrf, hcs]

/-- C10 witness: the empty-string removal applied to the concrete
two-item store. -/
theorem remove_empty_string_first_witness :
    (MemoryStore.remove rStore "").1 = some rItem1 ∧
      (MemoryStore.remove rStore "").2.memories = [rItem2] :=
  remove_empty_string_first rStore rItem1 [rItem2] (by decide)

/-! ## Tokenizer contract -/

/-- C8.  count is a nonnegative integer with count of the empty string
0, and for a nonnegative budget truncate_to_tokens returns a text whose
count fits the budget; the returned text is always the decoding of a
prefix of the token stream of the input, so the cut lands on a token
boundary of the encoding. -/
theorem token_counter_spec {τ : Type} (E : Encoder τ) (text : String) (maxTokens : Int) :
    TokenCounter.count E "" = 0 ∧
    (0 : Int) ≤ (TokenCounter.count E text : Int) ∧
    (0 ≤ maxTokens →
      (TokenCounter.count E (TokenCounter.truncate_to_tokens E text maxTokens) : Int)
        ≤ maxTokens) ∧
    (∃ n : Nat, TokenCounter.truncate_to_tokens E text maxTokens =
      E.decode ((E.encode text).take n)) := by
  refine ⟨rfl, by exact_mod_cast Nat.zero_le _, ?_, ?_⟩
  · intro hm
    simp only [TokenCounter.truncate_to_tokens]
    by_cases hfit : ((E.encode text).length : Int) ≤ maxTokens
    · rw [if_pos hfit]
      unfold TokenCounter.count
      by_cases ht : text = ""
      · rw [if_pos ht]
        simpa using hm
      · rw [if_neg ht]
        exact hfit
    · rw [if_neg hfit]
      set t' := E.decode (pyTake maxTokens (E.encode text)) with ht'
      unfold TokenCounter.count
      by_cases ht : t' = ""
      · rw [if_pos ht]
        simpa using hm
      · rw [if_neg ht]
        have hstep1 : (E.encode t').length ≤ (pyTake maxTokens (E.encode text)).length := by
          rw [ht']
          exact E.encode_decode_le (pyTake maxTokens (E.encode text))
        have hstep2 : ((pyTake maxTokens (E.encode text)).length : Int) ≤ maxTokens := by
          unfold pyTake
          rw [if_neg (by omega)]
          have hlen := List.length_take_le maxTokens.toNat (E.encode text)
          have hcast : ((E.encode text).take maxTokens.toNat).length ≤ maxTokens.toNat :=
            hlen
          calc (((E.encode text).take maxTokens.toNat).length : Int)
              ≤ (maxTokens.toNat : Int) := by exact_mod_cast hcast
            _ = maxTokens := Int.toNat_of_nonneg hm
        calc ((E.encode t').length : Int)
            ≤ ((pyTake maxTokens (E.encode text)).length : Int) := by exact_mod_cast hstep1
          _ ≤ maxTokens := hstep2
  · simp only [TokenCounter.truncate_to_tokens]
    by_cases hfit : ((E.encode text).length : Int) ≤ maxTokens
    · refine ⟨(E.encode text).length, ?_⟩
      rw [if_pos hfit, List.take_length, E.decode_encode]
    · by_cases hneg : maxTokens < 0
      · refine ⟨((E.encode text).length + maxTokens).toNat, ?_⟩
        rw [if_neg hfit]
        unfold pyTake
        rw [if_pos hneg]
      · refine ⟨maxTokens.toNat, ?_⟩
        rw [if_neg hfit]
        unfold pyTake
        rw [if_neg hneg]

/-- C8 witness: the contract evaluated at the character encoder on a
concrete text and budget. -/
theorem token_counter_spec_witness :
    TokenCounter.count charEnc "" = 0 ∧
    (TokenCounter.count charEnc (TokenCounter.truncate_to_tokens charEnc "hello" 3) : Int)
      ≤ 3 := by
  obtain ⟨h1, _, h3, _⟩ := token_counter_spec charEnc "hello" 3
  exact ⟨h1, h3 (by decide)⟩

end Vibemem
